import Mathlib

/-!
Verification of the logic-model graph engine specification.

The repository ships a Streamlit driver (`src/logic_model_app.py`) that
drives the engine `logic_model_sandbox` (LogicModel and the five component
kinds).  The engine module itself is not part of the sources, so its
operations are modelled from the specification; the driver's own behaviour
(the overrides dictionary it builds for simulation) is embedded from the
driver source.
-/

/-- The five component kinds: typed variants distinguishing the role in the
causal chain; they differ only in their tag, not in behaviour. -/
inductive Kind
  | Input
  | Activity
  | Output
  | Outcome
  | Impact
deriving DecidableEq, Repr

/-- The exception taxonomy of the engine. -/
inductive PyError
  | InvalidInputError
  | NotFoundError
  | InvalidLinkError
  | CyclicGraphError
  | UnknownInputError
deriving DecidableEq, Repr

/-- A dynamically typed constructor argument: either a Python string or a
value of any other runtime type. -/
inductive PyVal
  | str (s : String)
  | nonString
deriving DecidableEq, Repr

/-- A node of the logic-model graph: id (assigned at registration), kind tag,
display name, free-text description, and the ordered list of outgoing-link
target ids (insertion order = link creation order). -/
structure Component where
  id : Nat
  kind : Kind
  name : String
  description : String
  outgoing : List Nat
deriving DecidableEq, Repr

/-- Modelled from the spec: construction of a component of any kind by
`logic_model_sandbox` (module not under src/).  Requires a non-empty string
name, failing with `InvalidInputError` when the name is the empty string or
not a string; the description may be empty.  The id is a placeholder until
`addComponent` assigns the real one. -/
def mkComponent (kind : Kind) (name : PyVal) (description : String) :
    Except PyError Component :=
  match name with
  | PyVal.str s =>
    if s = "" then Except.error PyError.InvalidInputError
    else Except.ok { id := 0, kind := kind, name := s,
                     description := description, outgoing := [] }
  | PyVal.nonString => Except.error PyError.InvalidInputError

/-- The registry and graph owner: display name, the id-ordered component
registry (insertion order preserved), and the next id to assign. -/
structure LogicModel where
  name : String
  components : List Component
  nextId : Nat
deriving DecidableEq, Repr

/-- The ids of the registered components, in registry order. -/
def LogicModel.ids (m : LogicModel) : List Nat :=
  m.components.map (fun c => c.id)

/-- Modelled from the spec: `LogicModel.add_component` assigns the next
unused non-negative integer id (monotonically increasing, never reused),
inserts the component into the registry and returns the assigned id. -/
def addComponent (m : LogicModel) (c : Component) : LogicModel × Nat :=
  ({ m with
      components := m.components ++ [{ c with id := m.nextId }],
      nextId := m.nextId + 1 },
   m.nextId)

/-- Modelled from the spec: `LogicModel.get_component_by_id` returns the
component registered under the id, or fails with `NotFoundError`. -/
def getComponentById (m : LogicModel) (i : Nat) : Except PyError Component :=
  match m.components.find? (fun c => decide (c.id = i)) with
  | some c => Except.ok c
  | none => Except.error PyError.NotFoundError

/-- Modelled from the spec: `Component.add_link(target)` records a directed
edge from `c` to `t` inside the owning model.  It fails with
`InvalidLinkError` when the target is the component itself, when the target
does not belong to the same model, or when an identical link already
exists; otherwise the edge is appended to the source's outgoing links. -/
def addLink (m : LogicModel) (c t : Component) : Except PyError LogicModel :=
  if t = c then Except.error PyError.InvalidLinkError
  else if t ∈ m.components then
    if t.id ∈ c.outgoing then Except.error PyError.InvalidLinkError
    else Except.ok
      { m with
          components := m.components.map (fun x =>
            if x = c then { x with outgoing := x.outgoing ++ [t.id] } else x) }
  else Except.error PyError.InvalidLinkError

/-- Modelled from the spec: removing a component also removes every link
referencing it; the id counter is not decreased, so ids are never reused. -/
def removeComponent (m : LogicModel) (i : Nat) : LogicModel :=
  { m with
      components := (m.components.filter (fun c => decide (¬ c.id = i))).map
        (fun c => { c with outgoing := c.outgoing.filter (fun j => decide (¬ j = i)) }) }

/-- Modelled from the spec: `LogicModel.inputs`, the ordered sequence of
components whose kind is Input, in registry insertion order. -/
def LogicModel.inputs (m : LogicModel) : List Component :=
  m.components.filter (fun c => decide (c.kind = Kind.Input))

/-- Successors of the node `a` in the outgoing-link graph. -/
def succs (m : LogicModel) (a : Nat) : List Nat :=
  (m.components.filter (fun c => decide (c.id = a))).flatMap (fun c => c.outgoing)

/-- The components that have an outgoing link into the node `i`. -/
def preds (m : LogicModel) (i : Nat) : List Component :=
  m.components.filter (fun c => decide (i ∈ c.outgoing))

/-- Every node that appears in the model: all registered ids together with
all link targets. -/
def nodeUniverse (m : LogicModel) : List Nat :=
  (m.components.map (fun c => c.id) ++ m.components.flatMap (fun c => c.outgoing)).dedup

/-- One breadth step of reachability closure: the set together with all its
successors. -/
def expand (m : LogicModel) (s : List Nat) : List Nat :=
  (s ++ s.flatMap (succs m)).dedup

/-- Iterated closure steps. -/
def iterExpand (m : LogicModel) : Nat → List Nat → List Nat
  | 0, s => s
  | k + 1, s => expand m (iterExpand m k s)

/-- Executable cycle detection: some node reaches itself through at least one
link. -/
def hasCycleB (m : LogicModel) : Bool :=
  m.components.any (fun c =>
    decide (c.id ∈ iterExpand m (nodeUniverse m).length (succs m c.id)))

/-- The edge relation of the outgoing-link graph. -/
def Edge (m : LogicModel) (a b : Nat) : Prop :=
  b ∈ succs m a

instance (m : LogicModel) (a b : Nat) : Decidable (Edge m a b) := by
  unfold Edge
  infer_instance

/-- The outgoing-link graph has no directed cycle. -/
def Acyclic (m : LogicModel) : Prop :=
  ∀ a, ¬ Relation.TransGen (Edge m) a a

/-- Association-list lookup by key (the semantics of a Python dict lookup). -/
def lookupVal (d : List (String × Int)) (s : String) : Option Int :=
  match d with
  | [] => none
  | e :: rest => if e.1 = s then some e.2 else lookupVal rest s

/-- The seeded working value of an Input name: the override when provided,
otherwise the baseline 0. -/
def lookupOv (ov : List (String × Int)) (n : String) : Int :=
  (lookupVal ov n).getD 0

/-- Fuel-indexed working value of a node.  An Input component's value is its
seed; any other component's value is the sum of the working values of all
components with an outgoing link into it. -/
def valueFuel (m : LogicModel) (ov : List (String × Int)) : Nat → Nat → Int
  | 0, _ => 0
  | k + 1, i =>
    match m.components.find? (fun c => decide (c.id = i)) with
    | none => 0
    | some c =>
      if c.kind = Kind.Input then lookupOv ov c.name
      else ((preds m i).map (fun p => valueFuel m ov k p.id)).sum

/-- Fuel sufficient for the working values to stabilise on an acyclic
graph. -/
def simFuel (m : LogicModel) : Nat :=
  (nodeUniverse m).length + 1

/-- Modelled from the spec: `LogicModel.simulate` - seed the Inputs from the
overrides, propagate additively along links in topological order, fail with
`CyclicGraphError` on a cyclic graph, and report every component's name with
its computed value (0 for components not reached from any seeded Input). -/
def simulate (m : LogicModel) (ov : List (String × Int)) :
    Except PyError (List (String × Int)) :=
  if hasCycleB m then Except.error PyError.CyclicGraphError
  else Except.ok (m.components.map (fun c => (c.name, valueFuel m ov (simFuel m) c.id)))

/-- The severity of a validation finding. -/
inductive Severity
  | error
  | warning
deriving DecidableEq, Repr

/-- A structured, non-fatal validation finding: severity, human-readable
message, and the offending component ids. -/
structure Finding where
  severity : Severity
  message : String
  componentIds : List Nat
deriving DecidableEq, Repr

/-- Modelled from the spec: orphan check - a component with no incoming and
no outgoing links. -/
def orphanFindings (m : LogicModel) : List Finding :=
  (m.components.filter (fun c =>
      decide (preds m c.id = []) && decide (c.outgoing = []))).map
    (fun c =>
      { severity := Severity.warning,
        message := "orphan component with no links",
        componentIds := [c.id] })

/-- Modelled from the spec: dangling-direction check - an Impact or Outcome
with no incoming links is flagged; an Input with any incoming links is
flagged (Inputs must be graph sources). -/
def roleFindings (m : LogicModel) : List Finding :=
  m.components.flatMap (fun c =>
    if (c.kind = Kind.Impact ∨ c.kind = Kind.Outcome) ∧ preds m c.id = [] then
      [{ severity := Severity.warning,
         message := "no incoming links",
         componentIds := [c.id] }]
    else if c.kind = Kind.Input ∧ ¬ preds m c.id = [] then
      [{ severity := Severity.error,
         message := "Input component has incoming links",
         componentIds := [c.id] }]
    else [])

/-- Modelled from the spec: cycle check - report if the outgoing-link graph
contains a cycle. -/
def cycleFindings (m : LogicModel) : List Finding :=
  if hasCycleB m then
    [{ severity := Severity.error,
       message := "link graph contains a cycle",
       componentIds := [] }]
  else []

/-- Modelled from the spec: duplicate-name check - two components sharing one
name within the model (warning, not fatal). -/
def dupNameFindings (m : LogicModel) : List Finding :=
  ((m.components.map (fun c => c.name)).dedup.filter (fun n =>
      decide (1 < (m.components.filter (fun c => decide (c.name = n))).length))).map
    (fun n =>
      { severity := Severity.warning,
        message := "duplicate component name",
        componentIds := (m.components.filter (fun c => decide (c.name = n))).map
          (fun c => c.id) })

/-- Modelled from the spec: `LogicModel.validate` runs every structural check
and returns the ordered sequence of findings; it never raises. -/
def validate (m : LogicModel) : List Finding :=
  orphanFindings m ++ roleFindings m ++ cycleFindings m ++ dupNameFindings m

/-- Semantic validity of a model: no orphans, every Impact or Outcome has an
incoming link, Inputs are sources, the link graph is acyclic and names are
unique. -/
def ModelValid (m : LogicModel) : Prop :=
  (∀ c ∈ m.components, ¬ (preds m c.id = [] ∧ c.outgoing = [])) ∧
  (∀ c ∈ m.components, (c.kind = Kind.Impact ∨ c.kind = Kind.Outcome) →
    ¬ preds m c.id = []) ∧
  (∀ c ∈ m.components, c.kind = Kind.Input → preds m c.id = []) ∧
  Acyclic m ∧
  (m.components.map (fun c => c.name)).Nodup

/-- One serialized component record of the export document: id, kind tag,
name, description, ordered outgoing-link target ids. -/
structure ExportComponent where
  id : Nat
  kind : Kind
  name : String
  description : String
  links : List Nat
deriving DecidableEq, Repr

/-- The export document: model name and the registry-ordered component
records (the structured content of the JSON text). -/
structure ExportDoc where
  name : String
  components : List ExportComponent
deriving DecidableEq, Repr

/-- Modelled from the spec: `LogicModel.export_json` produces a complete,
order-preserving snapshot of the model: its name, and for every component in
registry order the id, kind tag, name, description and ordered outgoing-link
target ids.  The JSON text layer is modelled by the structured document. -/
def exportJson (m : LogicModel) : ExportDoc :=
  { name := m.name,
    components := m.components.map (fun c =>
      { id := c.id, kind := c.kind, name := c.name,
        description := c.description, links := c.outgoing }) }

/-- Modelled from the spec: `import_json`, the implied inverse of
`export_json` (not present in the driver), reconstructs the model from the
snapshot, keeping the recorded id assignment and link structure; the id
counter resumes above every imported id. -/
def importJson (d : ExportDoc) : LogicModel :=
  { name := d.name,
    components := d.components.map (fun e =>
      { id := e.id, kind := e.kind, name := e.name,
        description := e.description, outgoing := e.links }),
    nextId := (d.components.map (fun e => e.id)).foldr (fun a b => max (a + 1) b) 0 }

/-- An operation performed on a model through the public interface. -/
inductive Op
  | add (kind : Kind) (name : String) (description : String)
  | remove (i : Nat)
  | link (fromId toId : Nat)
deriving DecidableEq, Repr

/-- Apply one operation; an `add` returns the assigned id, any failure leaves
the model unchanged. -/
def applyOp (m : LogicModel) : Op → LogicModel × Option Nat
  | Op.add k n d =>
    match mkComponent k (PyVal.str n) d with
    | Except.error _ => (m, none)
    | Except.ok c =>
      let r := addComponent m c
      (r.1, some r.2)
  | Op.remove i => (removeComponent m i, none)
  | Op.link f t =>
    match getComponentById m f, getComponentById m t with
    | Except.ok c, Except.ok t2 =>
      match addLink m c t2 with
      | Except.ok m2 => (m2, none)
      | Except.error _ => (m, none)
    | _, _ => (m, none)

/-- Run a sequence of operations, collecting the ids assigned by the
successful `add` operations in order. -/
def runOps (m : LogicModel) : List Op → LogicModel × List Nat
  | [] => (m, [])
  | op :: rest =>
    let r := applyOp m op
    let r2 := runOps r.1 rest
    (r2.1, (match r.2 with | some i => [i] | none => []) ++ r2.2)

/-- The registry invariant maintained by the engine: every registered id is
below the id counter. -/
def IdsBounded (m : LogicModel) : Prop :=
  ∀ c ∈ m.components, c.id < m.nextId

/-- The registered ids are pairwise distinct. -/
def IdsNodup (m : LogicModel) : Prop :=
  (m.components.map (fun c => c.id)).Nodup

instance (m : LogicModel) : Decidable (IdsBounded m) := by
  unfold IdsBounded
  infer_instance

instance (m : LogicModel) : Decidable (IdsNodup m) := by
  unfold IdsNodup
  infer_instance

/-- Python dict assignment on an association list: replace the value of an
existing key in place, otherwise append the new binding. -/
def dictInsert (d : List (String × Int)) (k : String) (v : Int) :
    List (String × Int) :=
  if (lookupVal d k).isSome then
    d.map (fun e => if e.1 = k then (k, v) else e)
  else d ++ [(k, v)]

/-- The overrides dictionary the driver builds before `Run Simulation`
(src/logic_model_app.py lines 46-52): one numeric entry per name in
`lm.inputs`, taken at call time; `vals` is the per-name widget value. -/
def driverOverrides (m : LogicModel) (vals : String → Int) :
    List (String × Int) :=
  (LogicModel.inputs m).foldl (fun d c => dictInsert d c.name (vals c.name)) []

/-! ### Reachability closure: soundness, saturation and completeness -/

theorem iterExpand_succ (m : LogicModel) (k : Nat) (s : List Nat) :
    iterExpand m (k + 1) s = expand m (iterExpand m k s) := rfl

theorem mem_expand {m : LogicModel} {s : List Nat} {x : Nat} :
    x ∈ expand m s ↔ x ∈ s ∨ ∃ a ∈ s, x ∈ succs m a := by
  simp [expand, List.mem_dedup, List.mem_append, List.mem_flatMap]

theorem subset_iterExpand (m : LogicModel) (k : Nat) (s : List Nat) :
    ∀ x ∈ s, x ∈ iterExpand m k s := by
  induction k with
  | zero => intro x hx; exact hx
  | succ k ih =>
    intro x hx
    rw [iterExpand_succ]
    exact mem_expand.mpr (Or.inl (ih x hx))

theorem iterExpand_sound {m : LogicModel} {k : Nat} {s : List Nat} {x : Nat}
    (hx : x ∈ iterExpand m k s) :
    ∃ a ∈ s, Relation.ReflTransGen (Edge m) a x := by
  induction k generalizing x with
  | zero => exact ⟨x, hx, Relation.ReflTransGen.refl⟩
  | succ k ih =>
    rw [iterExpand_succ] at hx
    rcases mem_expand.mp hx with h | ⟨b, hb, hbx⟩
    · exact ih h
    · rcases ih hb with ⟨a, ha, hab⟩
      exact ⟨a, ha, hab.tail hbx⟩

theorem succs_subset_universe {m : LogicModel} {a x : Nat} (h : x ∈ succs m a) :
    x ∈ nodeUniverse m := by
  simp only [succs, List.mem_flatMap, List.mem_filter] at h
  rcases h with ⟨c, ⟨hc, _⟩, hx⟩
  simp only [nodeUniverse, List.mem_dedup, List.mem_append, List.mem_flatMap]
  exact Or.inr ⟨c, hc, hx⟩

theorem succs_source {m : LogicModel} {a x : Nat} (h : x ∈ succs m a) :
    ∃ c ∈ m.components, c.id = a := by
  simp only [succs, List.mem_flatMap, List.mem_filter] at h
  rcases h with ⟨c, ⟨hc, hid⟩, _⟩
  exact ⟨c, hc, by simpa using hid⟩

theorem id_mem_universe {m : LogicModel} {c : Component}
    (hc : c ∈ m.components) : c.id ∈ nodeUniverse m := by
  simp only [nodeUniverse, List.mem_dedup, List.mem_append, List.mem_map]
  exact Or.inl ⟨c, hc, rfl⟩

theorem iterExpand_subset_universe {m : LogicModel} {s : List Nat}
    (hs : ∀ x ∈ s, x ∈ nodeUniverse m) (k : Nat) :
    ∀ x ∈ iterExpand m k s, x ∈ nodeUniverse m := by
  induction k with
  | zero => exact hs
  | succ k ih =>
    intro x hx
    rw [iterExpand_succ] at hx
    rcases mem_expand.mp hx with h | ⟨a, _, hxa⟩
    · exact ih x h
    · exact succs_subset_universe hxa

theorem expand_congr {m : LogicModel} {s t : List Nat}
    (h : ∀ x, x ∈ s ↔ x ∈ t) : ∀ x, x ∈ expand m s ↔ x ∈ expand m t := by
  intro x
  simp only [mem_expand, h]

theorem iterExpand_congr {m : LogicModel} {s t : List Nat}
    (h : ∀ x, x ∈ s ↔ x ∈ t) (k : Nat) :
    ∀ x, x ∈ iterExpand m k s ↔ x ∈ iterExpand m k t := by
  induction k with
  | zero => exact h
  | succ k ih =>
    intro x
    rw [iterExpand_succ, iterExpand_succ]
    exact expand_congr ih x

theorem iterExpand_fixed {m : LogicModel} {s : List Nat}
    (h : ∀ x, x ∈ expand m s ↔ x ∈ s) (k : Nat) :
    ∀ x, x ∈ iterExpand m k s ↔ x ∈ s := by
  induction k with
  | zero => intro x; exact Iff.rfl
  | succ k ih =>
    intro x
    rw [iterExpand_succ]
    exact Iff.trans (expand_congr ih x) (h x)

theorem iterExpand_add (m : LogicModel) (a b : Nat) (s : List Nat) :
    iterExpand m (a + b) s = iterExpand m a (iterExpand m b s) := by
  induction a with
  | zero => rw [Nat.zero_add]; rfl
  | succ a ih =>
    rw [Nat.succ_add, iterExpand_succ, iterExpand_succ, ih]

theorem card_le_iterExpand (m : LogicModel) (s : List Nat) (k : Nat)
    (h : ∀ j < k,
      ¬ (∀ x, x ∈ expand m (iterExpand m j s) ↔ x ∈ iterExpand m j s)) :
    k ≤ (iterExpand m k s).toFinset.card := by
  induction k with
  | zero => exact Nat.zero_le _
  | succ k ih =>
    have hk := ih (fun j hj => h j (Nat.lt_succ_of_lt hj))
    have hnot := h k (Nat.lt_succ_self k)
    have hnew : ∃ x, x ∈ iterExpand m (k + 1) s ∧ x ∉ iterExpand m k s := by
      by_contra hc
      push_neg at hc
      refine hnot (fun x => ⟨fun hx => ?_, fun hx => mem_expand.mpr (Or.inl hx)⟩)
      exact hc x (by rw [iterExpand_succ]; exact hx)
    have hsub : (iterExpand m k s).toFinset ⊆ (iterExpand m (k + 1) s).toFinset := by
      intro x hx
      rw [List.mem_toFinset] at hx ⊢
      rw [iterExpand_succ]
      exact mem_expand.mpr (Or.inl hx)
    rcases hnew with ⟨x, hx1, hx2⟩
    have hss : (iterExpand m k s).toFinset ⊂ (iterExpand m (k + 1) s).toFinset := by
      rw [Finset.ssubset_iff_of_subset hsub]
      exact ⟨x, List.mem_toFinset.mpr hx1, fun hmem => hx2 (List.mem_toFinset.mp hmem)⟩
    have := Finset.card_lt_card hss
    omega

theorem iterExpand_saturates (m : LogicModel) (s : List Nat)
    (hs : ∀ x ∈ s, x ∈ nodeUniverse m) :
    ∃ j, j ≤ (nodeUniverse m).length ∧
      (∀ x, x ∈ expand m (iterExpand m j s) ↔ x ∈ iterExpand m j s) := by
  by_contra hc
  have hc2 : ∀ j, j ≤ (nodeUniverse m).length →
      ¬ (∀ x, x ∈ expand m (iterExpand m j s) ↔ x ∈ iterExpand m j s) :=
    fun j hj hP => hc ⟨j, hj, hP⟩
  have hcard := card_le_iterExpand m s ((nodeUniverse m).length + 1)
    (fun j hj => hc2 j (Nat.lt_succ_iff.mp hj))
  have hb : (iterExpand m ((nodeUniverse m).length + 1) s).toFinset ⊆
      (nodeUniverse m).toFinset := by
    intro x hx
    rw [List.mem_toFinset] at hx ⊢
    exact iterExpand_subset_universe hs _ x hx
  have h1 := Finset.card_le_card hb
  have h2 := List.toFinset_card_le (nodeUniverse m)
  omega

theorem iterExpand_stable (m : LogicModel) {s : List Nat}
    (hs : ∀ x ∈ s, x ∈ nodeUniverse m) :
    ∀ x, x ∈ expand m (iterExpand m (nodeUniverse m).length s) →
      x ∈ iterExpand m (nodeUniverse m).length s := by
  obtain ⟨j, hj, hfix⟩ := iterExpand_saturates m s hs
  have hdecomp : iterExpand m (nodeUniverse m).length s
      = iterExpand m ((nodeUniverse m).length - j) (iterExpand m j s) := by
    rw [← iterExpand_add]
    congr 1
    omega
  have hEq : ∀ x, x ∈ iterExpand m (nodeUniverse m).length s ↔
      x ∈ iterExpand m j s := by
    intro x
    rw [hdecomp]
    exact iterExpand_fixed hfix _ x
  intro x hx
  have hx2 : x ∈ expand m (iterExpand m j s) := (expand_congr hEq x).mp hx
  exact (hEq x).mpr ((hfix x).mp hx2)

theorem iterExpand_complete (m : LogicModel) {s : List Nat}
    (hs : ∀ x ∈ s, x ∈ nodeUniverse m) {a b : Nat}
    (hab : Relation.ReflTransGen (Edge m) a b) (ha : a ∈ s) :
    b ∈ iterExpand m (nodeUniverse m).length s := by
  induction hab with
  | refl => exact subset_iterExpand m _ s a ha
  | tail h1 h2 ih =>
    exact iterExpand_stable m hs _ (mem_expand.mpr (Or.inr ⟨_, ih, h2⟩))

theorem hasCycleB_iff (m : LogicModel) :
    hasCycleB m = true ↔ ∃ a, Relation.TransGen (Edge m) a a := by
  constructor
  · intro h
    rcases List.any_eq_true.mp h with ⟨c, hc, hcy⟩
    have hmem : c.id ∈ iterExpand m (nodeUniverse m).length (succs m c.id) :=
      of_decide_eq_true hcy
    rcases iterExpand_sound hmem with ⟨a, ha, har⟩
    exact ⟨c.id, Relation.TransGen.head' ha har⟩
  · rintro ⟨a, ha⟩
    rcases Relation.TransGen.head'_iff.mp ha with ⟨b, hab, hba⟩
    rcases succs_source hab with ⟨c, hc, hcid⟩
    have hmem : a ∈ iterExpand m (nodeUniverse m).length (succs m a) :=
      iterExpand_complete m (fun x hx => succs_subset_universe hx) hba hab
    refine List.any_eq_true.mpr ⟨c, hc, decide_eq_true ?_⟩
    rw [hcid]
    exact hmem

theorem acyclic_iff (m : LogicModel) : Acyclic m ↔ hasCycleB m = false := by
  constructor
  · intro hA
    cases hcy : hasCycleB m
    · rfl
    · rcases (hasCycleB_iff m).mp hcy with ⟨a, ha⟩
      exact absurd ha (hA a)
  · intro hF a ha
    have : hasCycleB m = true := (hasCycleB_iff m).mpr ⟨a, ha⟩
    rw [hF] at this
    exact Bool.noConfusion this

/-! ### Ranks on an acyclic graph and stabilisation of the working values -/

/-- The strict ancestors of a node: the universe nodes that reach it through
at least one link. -/
def ancestors (m : LogicModel) (i : Nat) : List Nat :=
  (nodeUniverse m).filter (fun a =>
    decide (i ∈ iterExpand m (nodeUniverse m).length (succs m a)))

theorem mem_ancestors {m : LogicModel} {i a : Nat} :
    a ∈ ancestors m i ↔ a ∈ nodeUniverse m ∧ Relation.TransGen (Edge m) a i := by
  simp only [ancestors, List.mem_filter, decide_eq_true_eq]
  constructor
  · rintro ⟨hU, hr⟩
    rcases iterExpand_sound hr with ⟨b, hb, hbr⟩
    exact ⟨hU, Relation.TransGen.head' hb hbr⟩
  · rintro ⟨hU, htg⟩
    rcases Relation.TransGen.head'_iff.mp htg with ⟨b, hab, hbi⟩
    exact ⟨hU, iterExpand_complete m (fun x hx => succs_subset_universe hx) hbi hab⟩

/-- The rank of a node: the number of its strict ancestors. -/
def nodeRank (m : LogicModel) (i : Nat) : Nat :=
  (ancestors m i).toFinset.card


theorem nodeRank_le (m : LogicModel) (i : Nat) :
    nodeRank m i ≤ (nodeUniverse m).length := by
  have hsub : (ancestors m i).toFinset ⊆ (nodeUniverse m).toFinset := by
    intro x hx
    rw [List.mem_toFinset] at hx ⊢
    exact (List.mem_filter.mp hx).1
  exact le_trans (Finset.card_le_card hsub) (List.toFinset_card_le _)

theorem edge_of_outgoing {m : LogicModel} {p : Component} {i : Nat}
    (hp : p ∈ m.components) (hi : i ∈ p.outgoing) : Edge m p.id i := by
  simp only [Edge, succs, List.mem_flatMap, List.mem_filter]
  exact ⟨p, ⟨hp, by simp⟩, hi⟩

theorem nodeRank_lt_of_pred (m : LogicModel) (hA : Acyclic m) {p : Component}
    {i : Nat} (hp : p ∈ m.components) (hi : i ∈ p.outgoing) :
    nodeRank m p.id < nodeRank m i := by
  have hedge : Edge m p.id i := edge_of_outgoing hp hi
  have hpu : p.id ∈ nodeUniverse m := id_mem_universe hp
  apply Finset.card_lt_card
  have hsub : (ancestors m p.id).toFinset ⊆ (ancestors m i).toFinset := by
    intro x hx
    rw [List.mem_toFinset] at hx ⊢
    rcases mem_ancestors.mp hx with ⟨hU, htg⟩
    exact mem_ancestors.mpr ⟨hU, htg.tail hedge⟩
  rw [Finset.ssubset_iff_of_subset hsub]
  refine ⟨p.id, List.mem_toFinset.mpr (mem_ancestors.mpr
    ⟨hpu, Relation.TransGen.single hedge⟩), fun hmem => ?_⟩
  rcases mem_ancestors.mp (List.mem_toFinset.mp hmem) with ⟨_, htg⟩
  exact hA p.id htg

theorem mem_preds {m : LogicModel} {i : Nat} {p : Component} :
    p ∈ preds m i ↔ p ∈ m.components ∧ i ∈ p.outgoing := by
  simp [preds, List.mem_filter]

theorem valueFuel_stable (m : LogicModel) (ov : List (String × Int))
    (hA : Acyclic m) :
    ∀ r i k k', nodeRank m i = r → nodeRank m i < k → nodeRank m i < k' →
      valueFuel m ov k i = valueFuel m ov k' i := by
  intro r
  induction r using Nat.strong_induction_on with
  | _ r ih =>
    intro i k k' hr hk hk'
    cases k with
    | zero => omega
    | succ k =>
      cases k' with
      | zero => omega
      | succ k' =>
        simp only [valueFuel]
        cases hf : m.components.find? (fun c => decide (c.id = i)) with
        | none => rfl
        | some c =>
          by_cases hkind : c.kind = Kind.Input
          · simp [hkind]
          · simp only [hkind, if_false]
            apply congrArg List.sum
            apply List.map_congr_left
            intro p hp
            rcases mem_preds.mp hp with ⟨hpm, hpi⟩
            have hlt := nodeRank_lt_of_pred m hA hpm hpi
            exact ih (nodeRank m p.id) (by omega) p.id k k' rfl (by omega) (by omega)

theorem find?_id_of_mem {l : List Component} {c : Component}
    (hnd : (l.map (fun x => x.id)).Nodup) (hc : c ∈ l) :
    l.find? (fun x => decide (x.id = c.id)) = some c := by
  induction l with
  | nil => exact absurd hc (List.not_mem_nil c)
  | cons a l ihl =>
    have hnd2 : a.id ∉ l.map (fun x => x.id) ∧ (l.map (fun x => x.id)).Nodup := by
      rw [List.map_cons, List.nodup_cons] at hnd
      exact hnd
    rcases List.mem_cons.mp hc with rfl | hmem2
    · exact List.find?_cons_of_pos _ (by simp)
    · have hane : ¬ (a.id = c.id) := by
        intro he
        exact hnd2.1 (he ▸ List.mem_map.mpr ⟨c, hmem2, rfl⟩)
      rw [List.find?_cons_of_neg _ (by simpa using hane)]
      exact ihl hnd2.2 hmem2

/-- On an acyclic graph with unique ids, the simulated working value of a
non-Input component equals the sum of the working values of all components
with an outgoing link into it. -/
theorem valueFuel_sum_eq (m : LogicModel) (ov : List (String × Int))
    (hA : Acyclic m) (hN : IdsNodup m) {c : Component}
    (hc : c ∈ m.components) (hkind : ¬ c.kind = Kind.Input) :
    valueFuel m ov (simFuel m) c.id =
      ((preds m c.id).map (fun p => valueFuel m ov (simFuel m) p.id)).sum := by
  have hfind : m.components.find? (fun x => decide (x.id = c.id)) = some c :=
    find?_id_of_mem hN hc
  have hstep : valueFuel m ov ((nodeUniverse m).length + 1) c.id =
      ((preds m c.id).map (fun p =>
        valueFuel m ov (nodeUniverse m).length p.id)).sum := by
    simp only [valueFuel]
    rw [hfind]
    simp only [hkind, if_false]
  have hmap : ((preds m c.id).map (fun p =>
      valueFuel m ov (nodeUniverse m).length p.id)).sum =
      ((preds m c.id).map (fun p => valueFuel m ov (simFuel m) p.id)).sum := by
    apply congrArg List.sum
    apply List.map_congr_left
    intro p hp
    rcases mem_preds.mp hp with ⟨hpm, hpi⟩
    have hlt := nodeRank_lt_of_pred m hA hpm hpi
    have hle := nodeRank_le m c.id
    exact valueFuel_stable m ov hA (nodeRank m p.id) p.id
      (nodeUniverse m).length (simFuel m) rfl (by omega)
      (by simp only [simFuel]; omega)
  exact Eq.trans hstep hmap

/-! ### Concrete example models -/

/-- The Input component "Funding" (id 0) of the worked example, linked to
"Training". -/
def fundingC : Component :=
  { id := 0, kind := Kind.Input, name := "Funding", description := "",
    outgoing := [1] }

/-- The Activity component "Training" (id 1), linked to "Trainees". -/
def trainingC : Component :=
  { id := 1, kind := Kind.Activity, name := "Training", description := "",
    outgoing := [2] }

/-- The Output component "Trainees" (id 2), no outgoing links. -/
def traineesC : Component :=
  { id := 2, kind := Kind.Output, name := "Trainees", description := "",
    outgoing := [] }

/-- The example chain model: Funding -> Training -> Trainees. -/
def chainModel : LogicModel :=
  { name := "Web Logic Model",
    components := [fundingC, trainingC, traineesC],
    nextId := 3 }

/-- The chain model after adding the back-link Trainees -> Funding. -/
def cyclicModel : LogicModel :=
  { name := "Web Logic Model",
    components := [fundingC, trainingC,
      { traineesC with outgoing := [0] }],
    nextId := 3 }

/-- A model holding a single freshly created Impact component with zero
links. -/
def impactModel : LogicModel :=
  { name := "Web Logic Model",
    components := [ { id := 0, kind := Kind.Impact, name := "I",
                      description := "", outgoing := [] } ],
    nextId := 1 }

/-- A component of some other model, never registered in `chainModel`. -/
def strayC : Component :=
  { id := 99, kind := Kind.Input, name := "Stray", description := "",
    outgoing := [] }

/-- A freshly constructed component about to be registered. -/
def newC : Component :=
  { id := 0, kind := Kind.Outcome, name := "Goal", description := "d",
    outgoing := [] }

/-- A fresh empty model. -/
def emptyModel : LogicModel :=
  { name := "M", components := [], nextId := 0 }

/-- An operation sequence with adds around a removal. -/
def demoOps : List Op :=
  [Op.add Kind.Input "A" "x", Op.add Kind.Activity "B" "",
   Op.remove 0, Op.add Kind.Output "C" ""]

/-! ### Claim theorems -/

/-- C1: on every model whose link graph is acyclic (with unique ids),
`simulate` succeeds and computes each non-Input component's working value as
the sum of the working values of all components that have an outgoing link
into it; the result maps each component's name to its working value. -/
theorem simulate_topological_sum (m : LogicModel) (ov : List (String × Int))
    (hA : Acyclic m) (hN : IdsNodup m) :
    simulate m ov = Except.ok (m.components.map (fun c =>
        (c.name, valueFuel m ov (simFuel m) c.id))) ∧
    ∀ c ∈ m.components, ¬ c.kind = Kind.Input →
      valueFuel m ov (simFuel m) c.id =
        ((preds m c.id).map (fun p => valueFuel m ov (simFuel m) p.id)).sum := by
  constructor
  · have hf : hasCycleB m = false := (acyclic_iff m).mp hA
    simp [simulate, hf]
  · intro c hc hkind
    exact valueFuel_sum_eq m ov hA hN hc hkind

/-- C1 witness: the chain Funding -> Training -> Trainees with override
`Funding = 10` yields 10 for all three components, and the non-Input
component Training satisfies the incoming-sum equation. -/
theorem simulate_topological_sum_witness :
    Acyclic chainModel ∧ IdsNodup chainModel ∧
    simulate chainModel [("Funding", 10)] =
      Except.ok [("Funding", 10), ("Training", 10), ("Trainees", 10)] ∧
    valueFuel chainModel [("Funding", 10)] (simFuel chainModel) 1 =
      ((preds chainModel 1).map (fun p =>
        valueFuel chainModel [("Funding", 10)] (simFuel chainModel) p.id)).sum := by
  have hA : Acyclic chainModel := (acyclic_iff chainModel).mpr (by decide)
  have h := simulate_topological_sum chainModel [("Funding", 10)] hA (by decide)
  refine ⟨hA, by decide, ?_, ?_⟩
  · rw [h.1]
    rfl
  · exact h.2 trainingC (by decide) (by decide)

/-- C3: on every model whose outgoing-link graph contains a cycle, any
`simulate` call fails with `CyclicGraphError` (and terminates). -/
theorem simulate_cycle_error (m : LogicModel) (ov : List (String × Int))
    (h : ∃ a, Relation.TransGen (Edge m) a a) :
    simulate m ov = Except.error PyError.CyclicGraphError := by
  have ht : hasCycleB m = true := (hasCycleB_iff m).mpr h
  simp [simulate, ht]

/-- C3 witness: adding the back-link Trainees -> Funding to the chain gives a
model whose simulation fails with `CyclicGraphError`. -/
theorem simulate_cycle_error_witness :
    addLink chainModel traineesC fundingC = Except.ok cyclicModel ∧
    simulate cyclicModel [("Funding", 10)] =
      Except.error PyError.CyclicGraphError := by
  refine ⟨rfl, ?_⟩
  apply simulate_cycle_error
  refine ⟨0, ?_⟩
  have e01 : Edge cyclicModel 0 1 := by decide
  have e12 : Edge cyclicModel 1 2 := by decide
  have e20 : Edge cyclicModel 2 0 := by decide
  exact Relation.TransGen.tail (Relation.TransGen.tail
    (Relation.TransGen.single e01) e12) e20

/-- C2: exporting and re-importing any model reconstructs a model with the
identical component list (ids, kind tags, names, descriptions and the
ordered outgoing-link target ids) and the same model name. -/
theorem export_import_round_trip (m : LogicModel) :
    (importJson (exportJson m)).name = m.name ∧
    (importJson (exportJson m)).components = m.components := by
  refine ⟨rfl, ?_⟩
  simp only [importJson, exportJson, List.map_map]
  exact List.map_id m.components

/-- C5: `add_link` fails with `InvalidLinkError` when the target is the
source itself, when the target does not belong to the model, or when the
identical link already exists; otherwise it records the directed edge from
the source to the target. -/
theorem add_link_spec (m : LogicModel) (c t : Component) :
    (t = c → addLink m c t = Except.error PyError.InvalidLinkError) ∧
    (t ∉ m.components → addLink m c t = Except.error PyError.InvalidLinkError) ∧
    (t.id ∈ c.outgoing → addLink m c t = Except.error PyError.InvalidLinkError) ∧
    (¬ t = c → t ∈ m.components → t.id ∉ c.outgoing → c ∈ m.components →
      ∃ m2, addLink m c t = Except.ok m2 ∧
        { c with outgoing := c.outgoing ++ [t.id] } ∈ m2.components ∧
        Edge m2 c.id t.id) := by
  refine ⟨?_, ?_, ?_, ?_⟩
  · intro h
    simp [addLink, h]
  · intro h
    by_cases he : t = c
    · simp [addLink, he]
    · simp [addLink, he, h]
  · intro h
    by_cases he : t = c
    · simp [addLink, he]
    · by_cases hm : t ∈ m.components
      · simp [addLink, he, hm, h]
      · simp [addLink, he, hm]
  · intro h1 h2 h3 h4
    refine ⟨{ m with components := m.components.map (fun x =>
        if x = c then { x with outgoing := x.outgoing ++ [t.id] } else x) },
      ?_, ?_, ?_⟩
    · simp [addLink, h1, h2, h3]
    · exact List.mem_map.mpr ⟨c, h4, by simp⟩
    · simp only [Edge, succs, List.mem_flatMap, List.mem_filter]
      exact ⟨{ c with outgoing := c.outgoing ++ [t.id] },
        ⟨List.mem_map.mpr ⟨c, h4, by simp⟩, by simp⟩, by simp⟩

/-- C5 witness: on the chain model a self-link fails, a link to a component
of another model fails, the duplicate link Funding -> Training fails, and
the legal link Trainees -> Funding is recorded. -/
theorem add_link_spec_witness :
    addLink chainModel fundingC fundingC =
      Except.error PyError.InvalidLinkError ∧
    addLink chainModel fundingC strayC =
      Except.error PyError.InvalidLinkError ∧
    addLink chainModel fundingC trainingC =
      Except.error PyError.InvalidLinkError ∧
    (∃ m2, addLink chainModel traineesC fundingC = Except.ok m2 ∧
      { traineesC with outgoing := traineesC.outgoing ++ [fundingC.id] } ∈
        m2.components ∧
      Edge m2 traineesC.id fundingC.id) := by
  exact ⟨(add_link_spec chainModel fundingC fundingC).1 rfl,
    (add_link_spec chainModel fundingC strayC).2.1 (by decide),
    (add_link_spec chainModel fundingC trainingC).2.2.1 (by decide),
    (add_link_spec chainModel traineesC fundingC).2.2.2 (by decide) (by decide)
      (by decide) (by decide)⟩

theorem find?_append_right {α : Type} {p : α → Bool} {l1 l2 : List α}
    (h : ∀ x ∈ l1, ¬ p x) : (l1 ++ l2).find? p = l2.find? p := by
  induction l1 with
  | nil => rfl
  | cons a l ih =>
    rw [List.cons_append, List.find?_cons_of_neg _ (h a (List.mem_cons_self a l))]
    exact ih (fun x hx => h x (List.mem_cons_of_mem a hx))

/-- C6: `get_component_by_id` fails with `NotFoundError` when no component
with the id exists, and after `add_component` it returns exactly the
component that was registered under the assigned id. -/
theorem get_component_by_id_spec (m : LogicModel) (i : Nat) (c : Component) :
    ((¬ ∃ x ∈ m.components, x.id = i) →
      getComponentById m i = Except.error PyError.NotFoundError) ∧
    (IdsBounded m →
      getComponentById (addComponent m c).1 (addComponent m c).2 =
        Except.ok { c with id := m.nextId }) := by
  constructor
  · intro h
    have hnone : m.components.find? (fun x => decide (x.id = i)) = none := by
      rw [List.find?_eq_none]
      intro x hx
      simp only [decide_eq_true_eq]
      exact fun he => h ⟨x, hx, he⟩
    simp [getComponentById, hnone]
  · intro hB
    have hfind : ((addComponent m c).1.components).find?
        (fun x => decide (x.id = (addComponent m c).2)) =
        some { c with id := m.nextId } := by
      show (m.components ++ [{ c with id := m.nextId }]).find?
        (fun x => decide (x.id = m.nextId)) = some { c with id := m.nextId }
      rw [find?_append_right]
      · exact List.find?_cons_of_pos _ (by simp)
      · intro x hx
        have := hB x hx
        simp only [decide_eq_true_eq]
        omega
    simp [getComponentById, hfind]

/-- C6 witness: id 99 is absent from the chain model and looking it up fails
with `NotFoundError`; registering a fresh component and looking up the
assigned id returns that component. -/
theorem get_component_by_id_spec_witness :
    (¬ ∃ x ∈ chainModel.components, x.id = 99) ∧
    getComponentById chainModel 99 = Except.error PyError.NotFoundError ∧
    IdsBounded chainModel ∧
    getComponentById (addComponent chainModel newC).1
        (addComponent chainModel newC).2 =
      Except.ok { newC with id := chainModel.nextId } := by
  have h := get_component_by_id_spec chainModel 99 newC
  exact ⟨by decide, h.1 (by decide), by decide, h.2 (by decide)⟩

/-- C7: component construction fails with `InvalidInputError` when the name
is the empty string or not a string, and succeeds for every non-empty string
name with any (possibly empty) description. -/
theorem mk_component_spec (k : Kind) (s d : String) :
    mkComponent k (PyVal.str "") d = Except.error PyError.InvalidInputError ∧
    mkComponent k PyVal.nonString d = Except.error PyError.InvalidInputError ∧
    (¬ s = "" → mkComponent k (PyVal.str s) d =
      Except.ok { id := 0, kind := k, name := s, description := d,
                  outgoing := [] }) := by
  refine ⟨rfl, rfl, fun h => ?_⟩
  simp [mkComponent, h]

/-- C7 witness: the Input kind with empty name and description "x" fails
with `InvalidInputError`, a non-string name fails, and "Funding" with an
empty description succeeds. -/
theorem mk_component_spec_witness :
    mkComponent Kind.Input (PyVal.str "") "x" =
      Except.error PyError.InvalidInputError ∧
    mkComponent Kind.Input PyVal.nonString "x" =
      Except.error PyError.InvalidInputError ∧
    mkComponent Kind.Input (PyVal.str "Funding") "" =
      Except.ok { id := 0, kind := Kind.Input, name := "Funding",
                  description := "", outgoing := [] } := by
  have h1 := mk_component_spec Kind.Input "Funding" "x"
  have h2 := mk_component_spec Kind.Input "Funding" ""
  exact ⟨h1.1, h1.2.1, h2.2.2 (by decide)⟩

theorem valueFuel_congr (m : LogicModel) {ov1 ov2 : List (String × Int)}
    (h : ∀ s, lookupVal ov1 s = lookupVal ov2 s) :
    ∀ k i, valueFuel m ov1 k i = valueFuel m ov2 k i := by
  intro k
  induction k with
  | zero => intro i; rfl
  | succ k ih =>
    intro i
    simp only [valueFuel]
    cases m.components.find? (fun c => decide (c.id = i)) with
    | none => rfl
    | some c =>
      by_cases hk : c.kind = Kind.Input
      · simp [hk, lookupOv, h]
      · simp only [hk, if_false]
        exact congrArg List.sum (List.map_congr_left (fun p _ => ih p.id))

/-- C8: simulation is a pure function of the graph and the overrides
mapping: on the same model, any two override lists that represent the same
mapping (identical lookups) produce identical outputs. -/
theorem simulate_pure (m : LogicModel) (ov1 ov2 : List (String × Int))
    (h : ∀ s, lookupVal ov1 s = lookupVal ov2 s) :
    simulate m ov1 = simulate m ov2 := by
  cases hcy : hasCycleB m with
  | true => simp [simulate, hcy]
  | false =>
    simp only [simulate, hcy, Bool.false_eq_true, if_false]
    apply congrArg Except.ok
    apply List.map_congr_left
    intro c _
    rw [valueFuel_congr m h]

/-- C8 witness: re-running the chain simulation with an override list
representing the same mapping (a shadowed duplicate entry added) yields the
identical output. -/
theorem simulate_pure_witness :
    simulate chainModel [("Funding", 10)] =
      simulate chainModel [("Funding", 10), ("Funding", 99)] := by
  apply simulate_pure
  intro s
  by_cases h : "Funding" = s <;> simp [lookupVal, h]

theorem count_name_eq (l : List Component) (n : String) :
    (l.map (fun c => c.name)).count n =
      (l.filter (fun c => decide (c.name = n))).length := by
  induction l with
  | nil => rfl
  | cons a l ih =>
    by_cases h : a.name = n
    · simp [List.count_cons, List.filter_cons, h, ih]
    · simp [List.count_cons, List.filter_cons, h, ih]

theorem orphanFindings_eq_nil (m : LogicModel) :
    orphanFindings m = [] ↔
      ∀ c ∈ m.components, ¬ (preds m c.id = [] ∧ c.outgoing = []) := by
  rw [orphanFindings, List.map_eq_nil_iff, List.filter_eq_nil_iff]
  simp

theorem roleFindings_eq_nil (m : LogicModel) :
    roleFindings m = [] ↔
      ∀ c ∈ m.components,
        ¬ ((c.kind = Kind.Impact ∨ c.kind = Kind.Outcome) ∧ preds m c.id = []) ∧
        ¬ (c.kind = Kind.Input ∧ ¬ preds m c.id = []) := by
  rw [roleFindings, List.flatMap_eq_nil_iff]
  constructor
  · intro h c hc
    have h2 := h c hc
    by_cases hA : (c.kind = Kind.Impact ∨ c.kind = Kind.Outcome) ∧ preds m c.id = []
    · rw [if_pos hA] at h2
      exact absurd h2 (by simp)
    · by_cases hB : c.kind = Kind.Input ∧ ¬ preds m c.id = []
      · rw [if_neg hA, if_pos hB] at h2
        exact absurd h2 (by simp)
      · exact ⟨hA, hB⟩
  · intro h c hc
    rw [if_neg (h c hc).1, if_neg (h c hc).2]

theorem cycleFindings_eq_nil (m : LogicModel) :
    cycleFindings m = [] ↔ hasCycleB m = false := by
  rw [cycleFindings]
  by_cases h : hasCycleB m <;> simp [h]

theorem dupNameFindings_eq_nil (m : LogicModel) :
    dupNameFindings m = [] ↔ (m.components.map (fun c => c.name)).Nodup := by
  rw [dupNameFindings, List.map_eq_nil_iff, List.filter_eq_nil_iff,
      List.nodup_iff_count_le_one]
  constructor
  · intro h n
    by_cases hn : n ∈ m.components.map (fun c => c.name)
    · have h2 := h n (List.mem_dedup.mpr hn)
      rw [count_name_eq]
      simpa using h2
    · rw [List.count_eq_zero_of_not_mem hn]
      exact Nat.zero_le 1
  · intro h n hn
    have h2 := h n
    rw [count_name_eq] at h2
    simp only [decide_eq_true_eq]
    omega

/-- C9 counterexample: on a model holding a single freshly created Impact
component with zero links, validate returns two findings (the orphan check
also fires), not one as claimed. -/
theorem validate_single_impact_counterexample :
    (validate impactModel).length = 2 ∧ ¬ (validate impactModel).length = 1 := by
  constructor
  · decide
  · decide

/-- C9 (amended): `validate` never raises; it returns the ordered sequence
of finding records (severity, message, offending component ids), empty
exactly when the model is valid; on the singleton fresh Impact model it
returns two findings - an orphan warning and a no-incoming-links warning -
and the model remains usable (it still simulates). -/
theorem validate_spec (m : LogicModel) :
    (validate m = [] ↔ ModelValid m) ∧
    validate impactModel =
      [{ severity := Severity.warning,
         message := "orphan component with no links", componentIds := [0] },
       { severity := Severity.warning,
         message := "no incoming links", componentIds := [0] }] ∧
    simulate impactModel [] = Except.ok [("I", 0)] := by
  refine ⟨?_, by decide, rfl⟩
  rw [validate, List.append_eq_nil, List.append_eq_nil, List.append_eq_nil,
      orphanFindings_eq_nil, roleFindings_eq_nil, cycleFindings_eq_nil,
      dupNameFindings_eq_nil]
  unfold ModelValid
  constructor
  · rintro ⟨⟨⟨h1, h2⟩, h3⟩, h4⟩
    refine ⟨h1, ?_, ?_, (acyclic_iff m).mpr h3, h4⟩
    · intro c hc hio hp
      exact (h2 c hc).1 ⟨hio, hp⟩
    · intro c hc hin
      by_contra hp
      exact (h2 c hc).2 ⟨hin, hp⟩
  · rintro ⟨h1, h2, h3, h4, h5⟩
    refine ⟨⟨⟨h1, ?_⟩, (acyclic_iff m).mp h4⟩, h5⟩
    intro c hc
    constructor
    · rintro ⟨hio, hp⟩
      exact h2 c hc hio hp
    · rintro ⟨hin, hp⟩
      exact hp (h3 c hc hin)

theorem addLink_ok_shape {m : LogicModel} {c t : Component} {m2 : LogicModel}
    (h : addLink m c t = Except.ok m2) :
    m2.nextId = m.nextId ∧
    m2.components = m.components.map (fun x =>
      if x = c then { x with outgoing := x.outgoing ++ [t.id] } else x) := by
  by_cases h1 : t = c
  · simp [addLink, h1] at h
  · by_cases h2 : t ∈ m.components
    · by_cases h3 : t.id ∈ c.outgoing
      · simp [addLink, h1, h2, h3] at h
      · simp only [addLink, if_neg h1, if_pos h2, if_neg h3,
          Except.ok.injEq] at h
        rw [← h]
        exact ⟨rfl, rfl⟩
    · simp [addLink, h1, h2] at h

theorem applyOp_nextId_le (m : LogicModel) (op : Op) :
    m.nextId ≤ (applyOp m op).1.nextId := by
  cases op with
  | add k n d =>
    rcases hmk : mkComponent k (PyVal.str n) d with e | c
    · simp [applyOp, hmk]
    · simp [applyOp, hmk, addComponent]
  | remove i => exact Nat.le_refl _
  | link f t =>
    rcases hf : getComponentById m f with e | c
    · simp [applyOp, hf]
    · rcases ht : getComponentById m t with e | t2
      · simp [applyOp, hf, ht]
      · rcases hl : addLink m c t2 with e | m2
        · simp [applyOp, hf, ht, hl]
        · simp only [applyOp, hf, ht, hl]
          exact Nat.le_of_eq (addLink_ok_shape hl).1.symm

theorem applyOp_bounded {m : LogicModel} (h : IdsBounded m) (op : Op) :
    IdsBounded (applyOp m op).1 := by
  cases op with
  | add k n d =>
    rcases hmk : mkComponent k (PyVal.str n) d with e | c
    · simp only [applyOp, hmk]
      exact h
    · simp only [applyOp, hmk]
      intro x hx
      simp only [addComponent, List.mem_append, List.mem_singleton] at hx
      rcases hx with hx | rfl
      · have := h x hx
        simp only [addComponent]
        omega
      · simp [addComponent]
  | remove i =>
    intro x hx
    simp only [applyOp, removeComponent, List.mem_map] at hx
    rcases hx with ⟨y, hy, rfl⟩
    exact h y (List.mem_of_mem_filter hy)
  | link f t =>
    rcases hf : getComponentById m f with e | c
    · simp only [applyOp, hf]
      exact h
    · rcases ht : getComponentById m t with e | t2
      · simp only [applyOp, hf, ht]
        exact h
      · rcases hl : addLink m c t2 with e | m2
        · simp only [applyOp, hf, ht, hl]
          exact h
        · simp only [applyOp, hf, ht, hl]
          intro x hx
          obtain ⟨hnext, hcomp⟩ := addLink_ok_shape hl
          rw [hcomp] at hx
          rcases List.mem_map.mp hx with ⟨y, hy, rfl⟩
          rw [hnext]
          by_cases hyc : y = c
          · simp only [if_pos hyc]
            exact hyc ▸ h y hy
          · simp only [if_neg hyc]
            exact h y hy

theorem applyOp_assigned {m : LogicModel} {op : Op} {i : Nat}
    (h : (applyOp m op).2 = some i) :
    i = m.nextId ∧ (applyOp m op).1.nextId = m.nextId + 1 := by
  cases op with
  | add k n d =>
    rcases hmk : mkComponent k (PyVal.str n) d with e | c
    · simp [applyOp, hmk] at h
    · simp only [applyOp, hmk, addComponent, Option.some.injEq] at h
      simp only [applyOp, hmk, addComponent]
      exact ⟨h.symm, trivial⟩
  | remove j => simp [applyOp] at h
  | link f t =>
    rcases hf : getComponentById m f with e | c
    · simp [applyOp, hf] at h
    · rcases ht : getComponentById m t with e | t2
      · simp [applyOp, hf, ht] at h
      · rcases hl : addLink m c t2 with e | m2
        · simp [applyOp, hf, ht, hl] at h
        · simp [applyOp, hf, ht, hl] at h

theorem runOps_ids (m : LogicModel) (ops : List Op) (h : IdsBounded m) :
    (∀ j ∈ (runOps m ops).2, m.nextId ≤ j) ∧
    List.Chain' (fun a b => a < b) (runOps m ops).2 ∧
    IdsBounded (runOps m ops).1 := by
  induction ops generalizing m with
  | nil =>
    refine ⟨?_, List.chain'_nil, h⟩
    intro j hj
    exact absurd hj (List.not_mem_nil j)
  | cons op rest ih =>
    have hb := applyOp_bounded h op
    obtain ⟨ih1, ih2, ih3⟩ := ih (applyOp m op).1 hb
    have hle := applyOp_nextId_le m op
    rcases h2 : (applyOp m op).2 with _ | i
    · simp only [runOps, h2, List.nil_append]
      refine ⟨?_, ih2, ih3⟩
      intro j hj
      exact Nat.le_trans hle (ih1 j hj)
    · obtain ⟨rfl, hnext⟩ := applyOp_assigned h2
      simp only [runOps, h2, List.singleton_append]
      refine ⟨?_, ?_, ih3⟩
      · intro j hj
        rcases List.mem_cons.mp hj with rfl | hj2
        · exact Nat.le_refl _
        · have h3 := ih1 j hj2
          omega
      · rw [List.chain'_cons']
        refine ⟨?_, ih2⟩
        intro y hy
        have hy2 := ih1 y (List.mem_of_mem_head? hy)
        rw [hnext] at hy2
        omega

/-- C4: `add_component` assigns the current id counter (the next unused
non-negative integer) and returns it, and across any interface operation
sequence - including removals - the assigned ids are pairwise distinct and
strictly increasing in assignment order. -/
theorem add_component_ids (m : LogicModel) (c : Component) (ops : List Op)
    (h : IdsBounded m) :
    (addComponent m c).2 = m.nextId ∧
    (addComponent m c).2 ∉ m.ids ∧
    List.Chain' (fun a b => a < b) (runOps m ops).2 ∧
    (runOps m ops).2.Nodup := by
  refine ⟨rfl, ?_, ?_, ?_⟩
  · intro hmem
    rcases List.mem_map.mp hmem with ⟨x, hx, hid⟩
    have := h x hx
    simp only [addComponent] at hid
    omega
  · exact (runOps_ids m ops h).2.1
  · have hch := (runOps_ids m ops h).2.1
    have hpw : List.Pairwise (fun a b => a < b) (runOps m ops).2 :=
      List.chain'_iff_pairwise.mp hch
    exact hpw.imp (fun hab => Nat.ne_of_lt hab)

/-- C4 witness: from the empty model, the sequence add, add, remove id 0,
add assigns the ids 0, 1, 2 - strictly increasing and with no reuse of the
removed id 0. -/
theorem add_component_ids_witness :
    IdsBounded emptyModel ∧
    (addComponent emptyModel newC).2 = emptyModel.nextId ∧
    (addComponent emptyModel newC).2 ∉ emptyModel.ids ∧
    List.Chain' (fun a b => a < b) (runOps emptyModel demoOps).2 ∧
    (runOps emptyModel demoOps).2.Nodup ∧
    (runOps emptyModel demoOps).2 = [0, 1, 2] := by
  have hB : IdsBounded emptyModel := by decide
  obtain ⟨h1, h2, h3, h4⟩ := add_component_ids emptyModel newC demoOps hB
  exact ⟨hB, h1, h2, h3, h4, by decide⟩

theorem lookupVal_replace_ne (d : List (String × Int)) (n s : String) (v : Int)
    (hs : ¬ s = n) :
    lookupVal (d.map (fun e => if e.1 = n then (n, v) else e)) s =
      lookupVal d s := by
  induction d with
  | nil => rfl
  | cons e rest ih =>
    by_cases he : e.1 = n
    · simp only [List.map_cons, if_pos he, lookupVal]
      rw [if_neg (fun h => hs (h.symm)), if_neg (fun h => hs (he ▸ h).symm)]
      exact ih
    · simp only [List.map_cons, if_neg he, lookupVal]
      by_cases hes : e.1 = s
      · rw [if_pos hes, if_pos hes]
      · rw [if_neg hes, if_neg hes]
        exact ih

theorem lookupVal_replace_eq (d : List (String × Int)) (n : String) (v : Int)
    (hd : (lookupVal d n).isSome) :
    lookupVal (d.map (fun e => if e.1 = n then (n, v) else e)) n = some v := by
  induction d with
  | nil => simp [lookupVal] at hd
  | cons e rest ih =>
    by_cases he : e.1 = n
    · simp [List.map_cons, if_pos he, lookupVal]
    · simp only [List.map_cons, if_neg he, lookupVal]
      apply ih
      simpa [lookupVal, if_neg he] using hd

theorem lookupVal_append_single (d : List (String × Int)) (n s : String)
    (v : Int) (hd : lookupVal d n = none) :
    lookupVal (d ++ [(n, v)]) s = if s = n then some v else lookupVal d s := by
  induction d with
  | nil =>
    by_cases hs : s = n
    · simp [lookupVal, hs]
    · have hns : ¬ n = s := fun h => hs h.symm
      simp [lookupVal, hs, hns]
  | cons e rest ih =>
    have he : ¬ e.1 = n := by
      intro h
      rw [lookupVal, if_pos h] at hd
      exact Option.noConfusion hd
    have hrest : lookupVal rest n = none := by
      rw [lookupVal, if_neg he] at hd
      exact hd
    by_cases hes : e.1 = s
    · have hsn : ¬ s = n := fun h => he (hes.symm ▸ h ▸ rfl)
      simp only [List.cons_append, lookupVal, if_pos hes, if_neg hsn]
    · simp only [List.cons_append, lookupVal, if_neg hes]
      exact ih hrest

theorem lookupVal_dictInsert (d : List (String × Int)) (n s : String)
    (v : Int) :
    lookupVal (dictInsert d n v) s = if s = n then some v
      else lookupVal d s := by
  unfold dictInsert
  by_cases hd : (lookupVal d n).isSome
  · rw [if_pos hd]
    by_cases hs : s = n
    · rw [if_pos hs, hs]
      exact lookupVal_replace_eq d n v hd
    · rw [if_neg hs]
      exact lookupVal_replace_ne d n s v hs
  · rw [if_neg hd]
    exact lookupVal_append_single d n s v (Option.not_isSome_iff_eq_none.mp hd)

theorem lookupVal_foldl_overrides (vals : String → Int) (l : List Component)
    (d : List (String × Int)) (s : String) :
    lookupVal (l.foldl (fun d2 c => dictInsert d2 c.name (vals c.name)) d) s =
      if s ∈ l.map (fun c => c.name) then some (vals s) else lookupVal d s := by
  induction l generalizing d with
  | nil => simp
  | cons c l ih =>
    simp only [List.foldl_cons]
    rw [ih]
    by_cases hmem : s ∈ l.map (fun c2 => c2.name)
    · rw [if_pos hmem, if_pos (by simp [List.map_cons]; right; simpa using hmem)]
    · rw [if_neg hmem, lookupVal_dictInsert]
      by_cases hs : s = c.name
      · rw [if_pos hs, if_pos (by simp [List.map_cons, hs])]
        rw [hs]
      · rw [if_neg hs]
        rw [if_neg (by simp [List.map_cons]; exact ⟨hs, by simpa using hmem⟩)]

/-- C10: the overrides dictionary the driver passes to `simulate` binds
exactly the names of the model's current Input components - each to its
widget value - and no other key, so no run through this UI passes an
unknown Input name. -/
theorem driver_overrides_keys (m : LogicModel) (vals : String → Int)
    (s : String) :
    lookupVal (driverOverrides m vals) s =
      if s ∈ (LogicModel.inputs m).map (fun c => c.name) then some (vals s)
      else none := by
  unfold driverOverrides
  rw [lookupVal_foldl_overrides]
  rfl
